import Mathlib

/-!
Verification of three LeetCode-style solutions (two-sum, roman-to-integer,
integer palindrome) against their natural-language specification.

The Rust sources are shallowly embedded: vectors become `List Int`, the
`HashMap<i32, usize>` becomes an extensional map `Int → Option Nat` whose
`insert` overwrites, and loops become recursive functions (with explicitly
fuelled variants used to state termination). The `i32` complement
subtraction `target - nums[i]` inside `two_sum` can overflow for 32-bit
inputs, so it is modelled by two's-complement wrapping (`wrap32`); the
remaining `i32` arithmetic is modelled by exact `Int` arithmetic, with
overflow expressed separately as statements that the exact values leave the
interval `[-2^31, 2^31)`.
-/

/-! ## two_sum (src/leetcode/01/a.rs, three implementations) -/

/-- Extensional model of `HashMap::insert`: later inserts overwrite. -/
def insertM (h : Int → Option Nat) (v : Int) (i : Nat) : Int → Option Nat :=
  fun k => if k = v then some i else h k

/-- Two's-complement wrap into the `i32` range `[-2^31, 2^31)`, as Rust
release-mode `i32` arithmetic computes an overflowing result. -/
def wrap32 (y : Int) : Int := (y + 2 ^ 31) % 2 ^ 32 - 2 ^ 31

/-- Loop of the second/third implementation: look up the `i32` complement
`target - nums[i]` (computed with wrapping), return
`[stored index, current index]` on a hit, otherwise insert and continue. -/
def two_sum_aux (target : Int) : List Int → Nat → (Int → Option Nat) → List Int
  | [], _, _ => []
  | v :: rest, i, h =>
    match h (wrap32 (target - v)) with
    | some j => [(j : Int), (i : Int)]
    | none => two_sum_aux target rest (i + 1) (insertM h v i)

/-- Second implementation of `two_sum` (the `match hash.get` version). -/
def two_sum (nums : List Int) (target : Int) : List Int :=
  two_sum_aux target nums 0 (fun _ => none)

/-- Loop of the first implementation: `if !hash.contains_key(..) { insert }
else { return vec![hash[&complement], i] }`; the guarded `hash[&k]` access is
modelled with `Option.getD`. -/
def two_sum_aux1 (target : Int) : List Int → Nat → (Int → Option Nat) → List Int
  | [], _, _ => []
  | v :: rest, i, h =>
    if h (wrap32 (target - v)) = none then
      two_sum_aux1 target rest (i + 1) (insertM h v i)
    else [(((h (wrap32 (target - v))).getD 0 : Nat) : Int), (i : Int)]

/-- First implementation of `two_sum`. -/
def two_sum1 (nums : List Int) (target : Int) : List Int :=
  two_sum_aux1 target nums 0 (fun _ => none)

/-- Loop of the third implementation (`if let Some(&j) = hash.get(..)`),
identical in structure to the second. -/
def two_sum_aux3 (target : Int) : List Int → Nat → (Int → Option Nat) → List Int
  | [], _, _ => []
  | v :: rest, i, h =>
    match h (wrap32 (target - v)) with
    | some j => [(j : Int), (i : Int)]
    | none => two_sum_aux3 target rest (i + 1) (insertM h v i)

/-- Third implementation of `two_sum`. -/
def two_sum3 (nums : List Int) (target : Int) : List Int :=
  two_sum_aux3 target nums 0 (fun _ => none)

/-! ## roman_to_int (src/leetcode/13/a.rs) -/

/-- `Solution::value`: symbol values, any other character is 0. -/
def value (c : Char) : Int :=
  match c with
  | 'I' => 1
  | 'V' => 5
  | 'X' => 10
  | 'L' => 50
  | 'C' => 100
  | 'D' => 500
  | 'M' => 1000
  | _ => 0

/-- `Solution::roman_to_int`: left-to-right scan; a character whose successor
has a strictly greater value is subtracted, otherwise added. -/
def roman_to_int : List Char → Int
  | [] => 0
  | [c] => value c
  | c :: d :: rest =>
    (if value c < value d then -value c else value c) + roman_to_int (d :: rest)

/-- Reference definition (spec side): the standard canonical Roman-numeral
encoder for 1..3999, by decimal digit tables. -/
def encodeRoman (n : Nat) : List Char :=
  (((["", "M", "MM", "MMM"].getD (n / 1000) "") ++
    (["", "C", "CC", "CCC", "CD", "D", "DC", "DCC", "DCCC", "CM"].getD (n / 100 % 10) "") ++
    (["", "X", "XX", "XXX", "XL", "L", "LX", "LXX", "LXXX", "XC"].getD (n / 10 % 10) "") ++
    (["", "I", "II", "III", "IV", "V", "VI", "VII", "VIII", "IX"].getD (n % 10) "")) : String).toList

/-! ## is_palindrome (src/leetcode/9/a.rs, two implementations) -/

/-- The `while n > 0 { tmp = tmp * 10 + n % 10; n /= 10 }` loop, on the exact
values (`n` is nonnegative at loop entry, so it is carried as a `Nat`). -/
def revLoop (n tmp : Nat) : Nat :=
  if h : 0 < n then revLoop (n / 10) (tmp * 10 + n % 10) else tmp
decreasing_by exact Nat.div_lt_self h (by norm_num)

/-- The successive values taken by `tmp` inside the loop, exactly. -/
def tmpTrace (n tmp : Nat) : List Nat :=
  if h : 0 < n then
    (tmp * 10 + n % 10) :: tmpTrace (n / 10) (tmp * 10 + n % 10)
  else []
decreasing_by exact Nat.div_lt_self h (by norm_num)

/-- First implementation of `is_palindrome` (digit-by-digit reversal). -/
def is_palindrome (x : Int) : Bool :=
  if x < 0 ∨ (x ≠ 0 ∧ x % 10 = 0) then false
  else decide ((revLoop x.toNat 0 : Int) = x)

/-- Decimal rendering of a nonnegative integer, as `Nat::to_string` produces
it (most significant digit first, `0` rendered as `"0"`). -/
def natChars (n : Nat) : List Char :=
  if n = 0 then ['0'] else ((Nat.digits 10 n).reverse).map Nat.digitChar

/-- Decimal rendering of an `i32`, as `i32::to_string` produces it. -/
def intToChars (x : Int) : List Char :=
  if x < 0 then '-' :: natChars x.natAbs else natChars x.toNat

/-- Second implementation of `is_palindrome`:
`x.to_string().chars().rev().eq(x.to_string().chars())`. -/
def is_palindrome_str (x : Int) : Bool :=
  decide ((intToChars x).reverse = intToChars x)

/-! ## Fuelled variants of the three loops (used to state termination) -/

/-- The reversal `while` loop with explicit fuel; `none` means the fuel ran
out before the loop exited. -/
def revLoopFuel : Nat → Nat → Nat → Option Nat
  | 0, _, _ => none
  | fuel + 1, n, tmp =>
    if 0 < n then revLoopFuel fuel (n / 10) (tmp * 10 + n % 10) else some tmp

/-- `is_palindrome` with the loop fuelled. -/
def is_palindromeFuel (fuel : Nat) (x : Int) : Option Bool :=
  if x < 0 ∨ (x ≠ 0 ∧ x % 10 = 0) then some false
  else (revLoopFuel fuel x.toNat 0).map (fun tmp => decide ((tmp : Int) = x))

/-- The `two_sum` scan with explicit fuel. -/
def two_sumFuel : Nat → Int → List Int → Nat → (Int → Option Nat) → Option (List Int)
  | 0, _, _, _, _ => none
  | fuel + 1, target, l, i, h =>
    match l with
    | [] => some []
    | v :: rest =>
      match h (wrap32 (target - v)) with
      | some j => some [(j : Int), (i : Int)]
      | none => two_sumFuel fuel target rest (i + 1) (insertM h v i)

/-- The `roman_to_int` scan with explicit fuel. -/
def roman_to_intFuel : Nat → List Char → Option Int
  | 0, _ => none
  | fuel + 1, l =>
    match l with
    | [] => some 0
    | [c] => some (value c)
    | c :: d :: rest =>
      (roman_to_intFuel fuel (d :: rest)).map
        (fun r => (if value c < value d then -value c else value c) + r)

/-! ## Equation lemmas for the well-founded loop definitions -/

theorem revLoop_zero (tmp : Nat) : revLoop 0 tmp = tmp := by
  unfold revLoop; simp

theorem revLoop_pos {n : Nat} (h : 0 < n) (tmp : Nat) :
    revLoop n tmp = revLoop (n / 10) (tmp * 10 + n % 10) := by
  rw [revLoop]; simp [h]

theorem tmpTrace_zero (tmp : Nat) : tmpTrace 0 tmp = [] := by
  unfold tmpTrace; simp

theorem tmpTrace_pos {n : Nat} (h : 0 < n) (tmp : Nat) :
    tmpTrace n tmp = (tmp * 10 + n % 10) :: tmpTrace (n / 10) (tmp * 10 + n % 10) := by
  rw [tmpTrace]; simp [h]

/-! ## Agreement of the three two_sum implementations -/

theorem two_sum_aux1_eq (target : Int) :
    ∀ (l : List Int) (i : Nat) (h : Int → Option Nat),
      two_sum_aux1 target l i h = two_sum_aux target l i h := by
  intro l
  induction l with
  | nil => intro i h; rfl
  | cons v rest ih =>
    intro i h
    cases hc : h (wrap32 (target - v)) with
    | none => simp [two_sum_aux1, two_sum_aux, hc, ih]
    | some j => simp [two_sum_aux1, two_sum_aux, hc]

theorem two_sum_aux3_eq (target : Int) :
    ∀ (l : List Int) (i : Nat) (h : Int → Option Nat),
      two_sum_aux3 target l i h = two_sum_aux target l i h := by
  intro l
  induction l with
  | nil => intro i h; rfl
  | cons v rest ih =>
    intro i h
    cases hc : h (wrap32 (target - v)) with
    | none => simp [two_sum_aux3, two_sum_aux, hc, ih]
    | some j => simp [two_sum_aux3, two_sum_aux, hc]

/-- C9: the three `two_sum` implementations in the source are pairwise
equivalent: on every input they return the same result vector. -/
theorem two_sum_impls_agree (nums : List Int) (target : Int) :
    two_sum1 nums target = two_sum nums target ∧
    two_sum nums target = two_sum3 nums target :=
  ⟨two_sum_aux1_eq target nums 0 _, (two_sum_aux3_eq target nums 0 _).symm⟩

/-- C10: `roman_to_int` applied to the empty string returns 0. -/
theorem roman_to_int_nil : roman_to_int [] = 0 := rfl

/-! ## Termination: the fuelled loops stop with fuel to spare -/

theorem revLoopFuel_eq : ∀ {fuel n : Nat}, n < fuel → ∀ tmp,
    revLoopFuel fuel n tmp = some (revLoop n tmp) := by
  intro fuel
  induction fuel with
  | zero => omega
  | succ f ih =>
    intro n hn tmp
    by_cases h : 0 < n
    · have hd : n / 10 < n := Nat.div_lt_self h (by norm_num)
      rw [revLoopFuel, if_pos h, ih (by omega), revLoop_pos h]
    · have h0 : n = 0 := by omega
      subst h0
      rw [revLoopFuel, if_neg h, revLoop_zero]

theorem two_sumFuel_eq (target : Int) :
    ∀ (l : List Int) {fuel : Nat}, l.length < fuel → ∀ (i : Nat) (h : Int → Option Nat),
      two_sumFuel fuel target l i h = some (two_sum_aux target l i h) := by
  intro l
  induction l with
  | nil =>
    intro fuel hf i h
    cases fuel with
    | zero => omega
    | succ f => rfl
  | cons v rest ih =>
    intro fuel hf i h
    cases fuel with
    | zero => simp at hf
    | succ f =>
      cases hc : h (wrap32 (target - v)) with
      | none =>
        simp only [two_sumFuel, two_sum_aux, hc]
        exact ih (by simpa using hf) (i + 1) (insertM h v i)
      | some j => simp [two_sumFuel, two_sum_aux, hc]

theorem roman_to_intFuel_eq :
    ∀ (l : List Char) {fuel : Nat}, l.length < fuel →
      roman_to_intFuel fuel l = some (roman_to_int l) := by
  intro l
  induction l with
  | nil =>
    intro fuel hf
    cases fuel with
    | zero => omega
    | succ f => rfl
  | cons c rest ih =>
    intro fuel hf
    cases fuel with
    | zero => simp at hf
    | succ f =>
      cases rest with
      | nil => rfl
      | cons d rest' =>
        have : (d :: rest').length < f := by simpa using hf
        simp [roman_to_intFuel, roman_to_int, ih this]

/-- C8: each of `two_sum`, `roman_to_int` and `is_palindrome` is total: the
faithful fuelled renderings of their loops terminate on every input (with a
fuel bound computed from the input) and return the value of the corresponding
recursive embedding; in particular the `while` loop of `is_palindrome` that
divides `n` by 10 terminates for every starting value. -/
theorem all_functions_terminate (x : Int) (nums : List Int) (target : Int) (s : List Char) :
    is_palindromeFuel (x.toNat + 1) x = some (is_palindrome x) ∧
    two_sumFuel (nums.length + 1) target nums 0 (fun _ => none) = some (two_sum nums target) ∧
    roman_to_intFuel (s.length + 1) s = some (roman_to_int s) := by
  refine ⟨?_, ?_, ?_⟩
  · by_cases hc : x < 0 ∨ (x ≠ 0 ∧ x % 10 = 0)
    · rw [is_palindromeFuel, is_palindrome, if_pos hc, if_pos hc]
    · rw [is_palindromeFuel, is_palindrome, if_neg hc, if_neg hc,
        revLoopFuel_eq (by omega)]
      rfl
  · exact two_sumFuel_eq target nums (by omega) 0 _
  · exact roman_to_intFuel_eq s (by omega)
/-! ## Arithmetic of the reversal loop -/

theorem revLoop_eq_ofDigits (n : Nat) :
    ∀ tmp, revLoop n tmp =
      Nat.ofDigits 10 (Nat.digits 10 n).reverse + tmp * 10 ^ (Nat.digits 10 n).length := by
  induction n using Nat.strong_induction_on with
  | _ n ih =>
    intro tmp
    rcases Nat.eq_zero_or_pos n with h0 | hp
    · subst h0; simp [revLoop_zero]
    · have hd : n / 10 < n := Nat.div_lt_self hp (by norm_num)
      rw [revLoop_pos hp, ih (n / 10) hd,
        Nat.digits_def' (by norm_num : (1:Nat) < 10) hp]
      simp only [List.reverse_cons, Nat.ofDigits_append, List.length_reverse,
        List.length_cons, Nat.ofDigits_cons, Nat.ofDigits_nil, pow_succ]
      ring

theorem le_revLoop (n : Nat) : ∀ tmp, tmp ≤ revLoop n tmp := by
  induction n using Nat.strong_induction_on with
  | _ n ih =>
    intro tmp
    rcases Nat.eq_zero_or_pos n with h0 | hp
    · subst h0; simp [revLoop_zero]
    · have hd : n / 10 < n := Nat.div_lt_self hp (by norm_num)
      rw [revLoop_pos hp]
      exact le_trans (by omega) (ih (n / 10) hd (tmp * 10 + n % 10))

theorem tmpTrace_le_revLoop (n : Nat) :
    ∀ tmp t, t ∈ tmpTrace n tmp → t ≤ revLoop n tmp := by
  induction n using Nat.strong_induction_on with
  | _ n ih =>
    intro tmp t ht
    rcases Nat.eq_zero_or_pos n with h0 | hp
    · subst h0; simp [tmpTrace_zero] at ht
    · have hd : n / 10 < n := Nat.div_lt_self hp (by norm_num)
      rw [tmpTrace_pos hp] at ht
      rw [revLoop_pos hp]
      rcases List.mem_cons.mp ht with h | h
      · subst h; exact le_revLoop (n / 10) _
      · exact ih (n / 10) hd _ t h

/-- C2 (amended): the exact values taken by the reversal accumulator are
bounded by the final reversed value, so whenever the full digit reversal of a
legal input fits below `2^31 - 1`, no step of the loop exceeds `2^31 - 1`;
the unconditional claim is refuted at `x = 1999999999`. -/
theorem revLoop_trace_bounded (x : Int) (_h0 : 0 ≤ x) (_h1 : x ≤ 2 ^ 31 - 1)
    (_h2 : x % 10 ≠ 0) (h3 : revLoop x.toNat 0 ≤ 2 ^ 31 - 1) :
    ∀ t ∈ tmpTrace x.toNat 0, t ≤ 2 ^ 31 - 1 :=
  fun t ht => le_trans (tmpTrace_le_revLoop x.toNat 0 t ht) h3

theorem revLoop_trace_bounded_witness :
    (0 : Int) ≤ 121 ∧ (121 : Int) ≤ 2 ^ 31 - 1 ∧ (121 : Int) % 10 ≠ 0 ∧
    revLoop (Int.toNat 121) 0 ≤ 2 ^ 31 - 1 ∧
    ∀ t ∈ tmpTrace (Int.toNat 121) 0, t ≤ 2 ^ 31 - 1 := by
  have h3 : revLoop (Int.toNat 121) 0 ≤ 2 ^ 31 - 1 := by
    norm_num [show Int.toNat 121 = 121 from rfl, revLoop_pos, revLoop_zero]
  exact ⟨by norm_num, by norm_num, by norm_num, h3,
    revLoop_trace_bounded 121 (by norm_num) (by norm_num) (by norm_num) h3⟩

/-- C2 (counterexample): at the legal input `x = 1999999999` (nonnegative,
below `2^31 - 1`, no trailing zero) the accumulator reaches `9999999991`,
which exceeds `2^31 - 1`: the claimed absence of overflow is false. -/
theorem revLoop_overflow_at_input :
    (0 : Int) ≤ 1999999999 ∧ (1999999999 : Int) ≤ 2 ^ 31 - 1 ∧
    (1999999999 : Int) % 10 ≠ 0 ∧
    9999999991 ∈ tmpTrace (Int.toNat 1999999999) 0 ∧ 2 ^ 31 - 1 < 9999999991 := by
  refine ⟨by norm_num, by norm_num, by norm_num, ?_, by norm_num⟩
  norm_num [show Int.toNat 1999999999 = 1999999999 from rfl, tmpTrace_pos, tmpTrace_zero]


/-! ## The reversal loop versus the decimal digit sequence -/

theorem revLoop_eq_ofDigits_reverse (n : Nat) :
    revLoop n 0 = Nat.ofDigits 10 (Nat.digits 10 n).reverse := by
  have := revLoop_eq_ofDigits n 0
  simpa using this

theorem digitChar_inj : ∀ a, a < 10 → ∀ b, b < 10 →
    Nat.digitChar a = Nat.digitChar b → a = b := by decide

theorem digitChar_ne_dash : ∀ a, a < 10 → Nat.digitChar a ≠ '-' := by decide

theorem map_digitChar_inj :
    ∀ (L1 L2 : List Nat), (∀ d ∈ L1, d < 10) → (∀ d ∈ L2, d < 10) →
      L1.map Nat.digitChar = L2.map Nat.digitChar → L1 = L2 := by
  intro L1
  induction L1 with
  | nil => intro L2 _ _ hm; cases L2 with
    | nil => rfl
    | cons b t => simp at hm
  | cons a t ih =>
    intro L2 h1 h2 hm
    cases L2 with
    | nil => simp at hm
    | cons b t2 =>
      simp only [List.map_cons, List.cons.injEq] at hm
      have ha : a = b := digitChar_inj a (h1 a (by simp)) b (h2 b (by simp)) hm.1
      have ht : t = t2 := ih t2 (fun d hd => h1 d (by simp [hd]))
        (fun d hd => h2 d (by simp [hd])) hm.2
      rw [ha, ht]

theorem revLoop_eq_self_iff {n : Nat} (h10 : n % 10 ≠ 0) :
    revLoop n 0 = n ↔ (Nat.digits 10 n).reverse = Nat.digits 10 n := by
  have hn : n ≠ 0 := fun h0 => h10 (by simp [h0])
  rw [revLoop_eq_ofDigits_reverse]
  constructor
  · intro h
    have hmem : ∀ d ∈ (Nat.digits 10 n).reverse, d < 10 := fun d hd =>
      Nat.digits_lt_base (by norm_num) (List.mem_reverse.mp hd)
    have hne : (Nat.digits 10 n).reverse ≠ [] := by
      simp [Nat.digits_ne_nil_iff_ne_zero.mpr hn]
    have hlast : ∀ (hne' : (Nat.digits 10 n).reverse ≠ []),
        ((Nat.digits 10 n).reverse).getLast hne' ≠ 0 := by
      intro hne'
      have h1 : ((Nat.digits 10 n).reverse).getLast? =
          some (((Nat.digits 10 n).reverse).getLast hne') :=
        List.getLast?_eq_getLast _ hne'
      rw [List.getLast?_reverse] at h1
      have h2 : (Nat.digits 10 n).head? = some (n % 10) := by
        rw [Nat.digits_def' (by norm_num : (1:Nat) < 10) (Nat.pos_of_ne_zero hn)]
        rfl
      rw [h2] at h1
      simp only [Option.some.injEq] at h1
      omega
    have := Nat.digits_ofDigits 10 (by norm_num) _ hmem hlast
    rw [h] at this
    exact this.symm
  · intro h
    rw [h]
    exact Nat.ofDigits_digits 10 n

theorem digits_not_palindrome {n : Nat} (hn : n ≠ 0) (h10 : n % 10 = 0) :
    (Nat.digits 10 n).reverse ≠ Nat.digits 10 n := by
  intro heq
  have hne : Nat.digits 10 n ≠ [] := Nat.digits_ne_nil_iff_ne_zero.mpr hn
  have h1 : (Nat.digits 10 n).getLast? = some ((Nat.digits 10 n).getLast hne) :=
    List.getLast?_eq_getLast _ hne
  have h2 : (Nat.digits 10 n).getLast? = (Nat.digits 10 n).head? := by
    conv_lhs => rw [← heq]
    exact List.getLast?_reverse _
  have h3 : (Nat.digits 10 n).head? = some (n % 10) := by
    rw [Nat.digits_def' (by norm_num : (1:Nat) < 10) (Nat.pos_of_ne_zero hn)]
    rfl
  rw [h2, h3] at h1
  simp only [Option.some.injEq] at h1
  exact Nat.getLast_digit_ne_zero 10 hn (by omega)

/-! ## Behaviour of the numeric is_palindrome -/

theorem is_palindrome_of_neg {x : Int} (h : x < 0) : is_palindrome x = false := by
  rw [is_palindrome, if_pos (Or.inl h)]

theorem is_palindrome_of_mul10 {x : Int} (h1 : x ≠ 0) (h2 : x % 10 = 0) :
    is_palindrome x = false := by
  rw [is_palindrome, if_pos (Or.inr ⟨h1, h2⟩)]

theorem is_palindrome_zero : is_palindrome 0 = true := by
  rw [is_palindrome, if_neg (by simp)]
  simp [revLoop_zero]

theorem is_palindrome_true_iff {x : Int} (h0 : 0 ≤ x) (h10 : x % 10 ≠ 0) :
    (is_palindrome x = true ↔
      (Nat.digits 10 x.toNat).reverse = Nat.digits 10 x.toNat) := by
  have hns : ¬(x < 0 ∨ (x ≠ 0 ∧ x % 10 = 0)) := by
    push_neg
    exact ⟨by omega, fun _ => h10⟩
  have hmod : x.toNat % 10 ≠ 0 := by omega
  rw [is_palindrome, if_neg hns, decide_eq_true_eq]
  have hcast : ((revLoop x.toNat 0 : Nat) : Int) = x ↔ revLoop x.toNat 0 = x.toNat := by
    omega
  rw [hcast, revLoop_eq_self_iff hmod]

/-! ## Behaviour of the string is_palindrome -/

theorem natChars_palindrome_iff (n : Nat) :
    ((natChars n).reverse = natChars n ↔
      (Nat.digits 10 n).reverse = Nat.digits 10 n) := by
  by_cases hn : n = 0
  · subst hn; simp [natChars]
  · rw [natChars, if_neg hn, List.map_reverse, List.reverse_reverse]
    have hb1 : ∀ d ∈ Nat.digits 10 n, d < 10 := fun d hd =>
      Nat.digits_lt_base (by norm_num) hd
    have hb2 : ∀ d ∈ (Nat.digits 10 n).reverse, d < 10 := fun d hd =>
      hb1 d (List.mem_reverse.mp hd)
    constructor
    · intro h
      have h' : (Nat.digits 10 n).map Nat.digitChar =
          ((Nat.digits 10 n).reverse).map Nat.digitChar := by
        rw [List.map_reverse]; exact h
      exact (map_digitChar_inj _ _ hb1 hb2 h').symm
    · intro h
      rw [← List.map_reverse, h]

theorem is_palindrome_str_of_neg {x : Int} (h : x < 0) : is_palindrome_str x = false := by
  rw [is_palindrome_str, intToChars, if_pos h, decide_eq_false_iff_not]
  intro heq
  have hn : x.natAbs ≠ 0 := by omega
  rw [natChars, if_neg hn] at heq
  have hdig : Nat.digits 10 x.natAbs ≠ [] := Nat.digits_ne_nil_iff_ne_zero.mpr hn
  have hcons : ∀ (a : Char) (L : List Char), L ≠ [] → (a :: L).getLast? = L.getLast? := by
    intro a L hL
    cases L with
    | nil => exact absurd rfl hL
    | cons b t => exact List.getLast?_cons_cons
  have hlne : ((Nat.digits 10 x.natAbs).reverse).map Nat.digitChar ≠ [] := by
    simp [hdig]
  have h1 : ('-' :: ((Nat.digits 10 x.natAbs).reverse).map Nat.digitChar).getLast? =
      some '-' := by
    conv_lhs => rw [← heq]
    rw [List.getLast?_reverse]
    rfl
  rw [hcons _ _ hlne] at h1
  have hzmem : '-' ∈ ((Nat.digits 10 x.natAbs).reverse).map Nat.digitChar :=
    List.mem_of_getLast?_eq_some h1
  obtain ⟨d, hd, hdc⟩ := List.mem_map.mp hzmem
  have hd10 : d < 10 := Nat.digits_lt_base (by norm_num) (List.mem_reverse.mp hd)
  exact digitChar_ne_dash d hd10 hdc

theorem is_palindrome_str_nonneg_iff {x : Int} (h : 0 ≤ x) :
    (is_palindrome_str x = true ↔ (natChars x.toNat).reverse = natChars x.toNat) := by
  rw [is_palindrome_str, intToChars, if_neg (by omega), decide_eq_true_eq]

/-- C5: `is_palindrome` returns false on negatives, false on nonzero
multiples of 10, true on 0, and for nonnegative inputs with no trailing zero
it returns true exactly when the decimal digit sequence is its own reverse. -/
theorem is_palindrome_spec (x : Int) :
    (x < 0 → is_palindrome x = false) ∧
    (x ≠ 0 → x % 10 = 0 → is_palindrome x = false) ∧
    (x = 0 → is_palindrome x = true) ∧
    (0 ≤ x → x % 10 ≠ 0 →
      (is_palindrome x = true ↔
        (Nat.digits 10 x.toNat).reverse = Nat.digits 10 x.toNat)) :=
  ⟨fun h => is_palindrome_of_neg h,
   fun h1 h2 => is_palindrome_of_mul10 h1 h2,
   fun h0 => h0 ▸ is_palindrome_zero,
   fun h0 h10 => is_palindrome_true_iff h0 h10⟩

theorem is_palindrome_spec_witness :
    is_palindrome (-121) = false ∧ is_palindrome 10 = false ∧
    is_palindrome 0 = true ∧
    (is_palindrome 121 = true ↔
      (Nat.digits 10 (Int.toNat 121)).reverse = Nat.digits 10 (Int.toNat 121)) :=
  ⟨(is_palindrome_spec (-121)).1 (by norm_num),
   (is_palindrome_spec 10).2.1 (by norm_num) (by norm_num),
   (is_palindrome_spec 0).2.2.1 rfl,
   (is_palindrome_spec 121).2.2.2 (by norm_num) (by norm_num)⟩

/-- C6: on every 32-bit signed integer the numeric digit-reversal
implementation and the string-reversal implementation of `is_palindrome`
return the same boolean. -/
theorem is_palindrome_impls_agree (x : Int) (hlo : -(2 ^ 31) ≤ x) (hhi : x < 2 ^ 31) :
    is_palindrome x = is_palindrome_str x := by
  rcases lt_trichotomy x 0 with hneg | hzero | hpos
  · rw [is_palindrome_of_neg hneg, is_palindrome_str_of_neg hneg]
  · subst hzero
    rw [is_palindrome_zero]
    symm
    rw [is_palindrome_str_nonneg_iff le_rfl]
    simp [natChars]
  · by_cases h10 : x % 10 = 0
    · have hfalse : is_palindrome_str x = false := by
        cases hb : is_palindrome_str x with
        | false => rfl
        | true =>
          have hpal := (is_palindrome_str_nonneg_iff (by omega : (0:Int) ≤ x)).mp hb
          have hdg := (natChars_palindrome_iff x.toNat).mp hpal
          exact absurd hdg (digits_not_palindrome (by omega) (by omega))
      rw [is_palindrome_of_mul10 (by omega) h10, hfalse]
    · rw [Bool.eq_iff_iff, is_palindrome_true_iff (by omega) h10,
        is_palindrome_str_nonneg_iff (by omega), natChars_palindrome_iff]

theorem is_palindrome_impls_agree_witness :
    -(2 ^ 31) ≤ (121 : Int) ∧ (121 : Int) < 2 ^ 31 ∧
    is_palindrome 121 = is_palindrome_str 121 :=
  ⟨by norm_num, by norm_num, is_palindrome_impls_agree 121 (by norm_num) (by norm_num)⟩

/-! ## roman_to_int: sign, bounds, round trip -/

theorem value_le_1000 (c : Char) : value c ≤ 1000 := by
  unfold value
  split <;> norm_num

theorem symbol_value_pos {c : Char} (h : c ∈ (['I', 'V', 'X', 'L', 'C', 'D', 'M'] : List Char)) :
    1 ≤ value c := by
  fin_cases h <;> norm_num [value]

theorem symbol_value_double {c d : Char}
    (hc : c ∈ (['I', 'V', 'X', 'L', 'C', 'D', 'M'] : List Char))
    (hd : d ∈ (['I', 'V', 'X', 'L', 'C', 'D', 'M'] : List Char))
    (h : value c < value d) : 2 * value c ≤ value d := by
  fin_cases hc <;> fin_cases hd <;> revert h <;> norm_num [value]

theorem roman_to_int_ge_head :
    ∀ (rest : List Char) (c : Char),
      (∀ e ∈ c :: rest, e ∈ (['I', 'V', 'X', 'L', 'C', 'D', 'M'] : List Char)) →
      value c ≤ roman_to_int (c :: rest) := by
  intro rest
  induction rest with
  | nil => intro c _; exact le_of_eq rfl
  | cons d rest' ih =>
    intro c hmem
    have hd : value d ≤ roman_to_int (d :: rest') :=
      ih d (fun e he => hmem e (List.mem_cons_of_mem c he))
    have hdpos : 1 ≤ value d := symbol_value_pos (hmem d (by simp))
    rw [roman_to_int]
    by_cases hlt : value c < value d
    · rw [if_pos hlt]
      have h2 : 2 * value c ≤ value d :=
        symbol_value_double (hmem c (by simp)) (hmem d (by simp)) hlt
      omega
    · rw [if_neg hlt]
      omega

theorem roman_to_int_nonneg (s : List Char)
    (hs : ∀ c ∈ s, c ∈ (['I', 'V', 'X', 'L', 'C', 'D', 'M'] : List Char)) :
    0 ≤ roman_to_int s := by
  cases s with
  | nil => exact le_of_eq rfl
  | cons c rest =>
    have h1 : 1 ≤ value c := symbol_value_pos (hs c (by simp))
    have := roman_to_int_ge_head rest c hs
    omega

theorem roman_to_int_le (s : List Char) : roman_to_int s ≤ 1000 * s.length := by
  induction s with
  | nil => simp [roman_to_int]
  | cons c rest ih =>
    cases rest with
    | nil =>
      have := value_le_1000 c
      simp only [roman_to_int, List.length_cons, List.length_nil]
      omega
    | cons d rest' =>
      have hv := value_le_1000 c
      have hvn : -value c ≤ 1000 := by
        unfold value
        split <;> norm_num
      rw [roman_to_int]
      simp only [List.length_cons] at ih ⊢
      by_cases hlt : value c < value d
      · rw [if_pos hlt]
        omega
      · rw [if_neg hlt]
        omega

theorem roman_to_int_replicate_M :
    ∀ k : Nat, roman_to_int (List.replicate k 'M') = 1000 * k := by
  intro k
  induction k with
  | zero => rfl
  | succ j ih =>
    rw [List.replicate_succ]
    cases hj : j with
    | zero => norm_num [roman_to_int, value]
    | succ j' =>
      rw [hj] at ih
      rw [List.replicate_succ, roman_to_int, ← List.replicate_succ, ih]
      norm_num [value]
      ring

/-- C7 (amended): on any string over the symbol set the decoded value is a
nonnegative integer bounded by 1000 times the length, hence within the 32-bit
signed range whenever `1000 * length ≤ 2^31 - 1`; the unconditional 32-bit
bound of the claim is refuted by a string of 2147484 copies of `M`. -/
theorem roman_to_int_nonneg_bounded (s : List Char)
    (hs : ∀ c ∈ s, c ∈ (['I', 'V', 'X', 'L', 'C', 'D', 'M'] : List Char)) :
    0 ≤ roman_to_int s ∧ roman_to_int s ≤ 1000 * s.length ∧
    (1000 * (s.length : Int) ≤ 2 ^ 31 - 1 → roman_to_int s ≤ 2 ^ 31 - 1) :=
  ⟨roman_to_int_nonneg s hs, roman_to_int_le s,
   fun hlen => le_trans (roman_to_int_le s) hlen⟩

theorem roman_to_int_nonneg_bounded_witness :
    (∀ c ∈ ('M' :: 'C' :: 'M' :: 'X' :: 'C' :: 'I' :: 'V' :: [] : List Char),
      c ∈ (['I', 'V', 'X', 'L', 'C', 'D', 'M'] : List Char)) ∧
    0 ≤ roman_to_int ('M' :: 'C' :: 'M' :: 'X' :: 'C' :: 'I' :: 'V' :: []) ∧
    roman_to_int ('M' :: 'C' :: 'M' :: 'X' :: 'C' :: 'I' :: 'V' :: []) ≤
      1000 * ('M' :: 'C' :: 'M' :: 'X' :: 'C' :: 'I' :: 'V' :: [] : List Char).length ∧
    (1000 * (('M' :: 'C' :: 'M' :: 'X' :: 'C' :: 'I' :: 'V' :: [] : List Char).length : Int) ≤
        2 ^ 31 - 1 →
      roman_to_int ('M' :: 'C' :: 'M' :: 'X' :: 'C' :: 'I' :: 'V' :: []) ≤ 2 ^ 31 - 1) :=
  ⟨by decide, roman_to_int_nonneg_bounded _ (by decide)⟩

/-- C7 (counterexample): every character of the 2147484-fold repetition of
`M` is a legal symbol, yet the decoded value 2147484000 exceeds `2^31 - 1`,
so the result is not a 32-bit signed integer. -/
theorem roman_to_int_exceeds_int32 :
    (∀ c ∈ List.replicate 2147484 'M', c ∈ (['I', 'V', 'X', 'L', 'C', 'D', 'M'] : List Char)) ∧
    roman_to_int (List.replicate 2147484 'M') = 2147484000 ∧
    ¬(roman_to_int (List.replicate 2147484 'M') ≤ 2 ^ 31 - 1) := by
  refine ⟨?_, ?_, ?_⟩
  · intro c hc
    rw [List.eq_of_mem_replicate hc]
    simp
  · rw [roman_to_int_replicate_M]
    norm_num
  · rw [roman_to_int_replicate_M]
    norm_num

set_option maxRecDepth 1000000 in
theorem roman_round_trip_chunk0 :
    ∀ n : Nat, n < 1000 → roman_to_int (encodeRoman n) = (n : Int) := by decide

set_option maxRecDepth 1000000 in
theorem roman_round_trip_chunk1 :
    ∀ n : Nat, n < 1000 → roman_to_int (encodeRoman (1000 + n)) = (1000 + n : Int) := by decide

set_option maxRecDepth 1000000 in
theorem roman_round_trip_chunk2 :
    ∀ n : Nat, n < 1000 → roman_to_int (encodeRoman (2000 + n)) = (2000 + n : Int) := by decide

set_option maxRecDepth 1000000 in
theorem roman_round_trip_chunk3 :
    ∀ n : Nat, n < 1000 → roman_to_int (encodeRoman (3000 + n)) = (3000 + n : Int) := by decide

/-- C4: decoding the canonical Roman numeral produced by the standard
encoder returns the encoded number, for every `n` between 1 and 3999. -/
theorem roman_round_trip (n : Nat) (h1 : 1 ≤ n) (h2 : n ≤ 3999) :
    roman_to_int (encodeRoman n) = (n : Int) := by
  have hcase : n < 1000 ∨ (1000 ≤ n ∧ n < 2000) ∨ (2000 ≤ n ∧ n < 3000) ∨
      (3000 ≤ n ∧ n < 4000) := by omega
  rcases hcase with h | ⟨hl, hr⟩ | ⟨hl, hr⟩ | ⟨hl, hr⟩
  · exact roman_round_trip_chunk0 n h
  · have he : 1000 + (n - 1000) = n := by omega
    rw [← he]
    exact roman_round_trip_chunk1 (n - 1000) (by omega)
  · have he : 2000 + (n - 2000) = n := by omega
    rw [← he]
    exact roman_round_trip_chunk2 (n - 2000) (by omega)
  · have he : 3000 + (n - 3000) = n := by omega
    rw [← he]
    exact roman_round_trip_chunk3 (n - 3000) (by omega)

theorem roman_round_trip_witness :
    1 ≤ 1994 ∧ 1994 ≤ 3999 ∧ roman_to_int (encodeRoman 1994) = (1994 : Int) :=
  ⟨by norm_num, by norm_num, roman_round_trip 1994 (by norm_num) (by norm_num)⟩

/-! ## two_sum: soundness, completeness, and the overwrite tie-break

The `i32` complement lookup wraps, so the scan finds pairs with respect to
sums modulo `2^32`; for values inside the `i32` range a key equals the
wrapped complement exactly when the sum is congruent to the target. -/

theorem wrap32_sub_dvd (y : Int) : (2 ^ 32 : Int) ∣ (wrap32 y - y) := by
  unfold wrap32
  omega

theorem wrap32_eq_iff {y v : Int} (h1 : -(2 ^ 31) ≤ v) (h2 : v < 2 ^ 31) :
    wrap32 y = v ↔ (2 ^ 32 : Int) ∣ (y - v) := by
  unfold wrap32
  omega

theorem two_sum_aux_spec (target : Int) :
    ∀ (l seen : List Int) (h : Int → Option Nat),
      (∀ (v : Int) (j : Nat), h v = some j →
        seen[j]? = some v ∧ ∀ k : Nat, j < k → seen[k]? ≠ some v) →
      (∀ (j : Nat) (v : Int), seen[j]? = some v → h v ≠ none) →
      (two_sum_aux target l seen.length h = [] ∧
        ∀ p q vp vq, p < q → seen.length ≤ q →
          (seen ++ l)[p]? = some vp → (seen ++ l)[q]? = some vq →
          -(2 ^ 31) ≤ vp → vp < 2 ^ 31 →
          ¬ (2 ^ 32 : Int) ∣ (vp + vq - target)) ∨
      (∃ (a b : Nat) (va vb : Int),
        two_sum_aux target l seen.length h = [(a : Int), (b : Int)] ∧
        a < b ∧ (seen ++ l)[a]? = some va ∧ (seen ++ l)[b]? = some vb ∧
        va = wrap32 (target - vb) ∧
        ∀ k : Nat, a < k → k < b → (seen ++ l)[k]? ≠ some va) := by
  intro l
  induction l with
  | nil =>
    intro seen h _ _
    left
    refine ⟨rfl, ?_⟩
    intro p q vp vq hpq hq hp' hq' _ _
    rw [List.append_nil] at hq'
    have := (List.getElem?_eq_some_iff.mp hq').1
    omega
  | cons v rest ih =>
    intro seen h inv1 inv2
    cases hc : h (wrap32 (target - v)) with
    | some j =>
      right
      obtain ⟨hj1, hj2⟩ := inv1 (wrap32 (target - v)) j hc
      have hjlt : j < seen.length := (List.getElem?_eq_some_iff.mp hj1).1
      refine ⟨j, seen.length, wrap32 (target - v), v, ?_, hjlt, ?_, ?_, rfl, ?_⟩
      · simp [two_sum_aux, hc]
      · rw [List.getElem?_append_left hjlt]
        exact hj1
      · rw [List.getElem?_append_right (le_refl _)]
        simp
      · intro k hk1 hk2 hk3
        rw [List.getElem?_append_left hk2] at hk3
        exact hj2 k hk1 hk3
    | none =>
      have step : two_sum_aux target (v :: rest) seen.length h
          = two_sum_aux target rest (seen.length + 1) (insertM h v seen.length) := by
        simp [two_sum_aux, hc]
      have inv1' : ∀ (v' : Int) (j' : Nat), insertM h v seen.length v' = some j' →
          (seen ++ [v])[j']? = some v' ∧ ∀ k : Nat, j' < k → (seen ++ [v])[k]? ≠ some v' := by
        intro v' j' hj'
        unfold insertM at hj'
        by_cases hv : v' = v
        · rw [if_pos hv] at hj'
          injection hj' with hj'
          subst hj'
          subst hv
          refine ⟨List.getElem?_concat_length seen v', ?_⟩
          intro k hk hk2
          rw [List.getElem?_eq_none (by simp; omega)] at hk2
          exact Option.noConfusion hk2
        · rw [if_neg hv] at hj'
          obtain ⟨ha1, ha2⟩ := inv1 v' j' hj'
          have hlt : j' < seen.length := (List.getElem?_eq_some_iff.mp ha1).1
          refine ⟨by rw [List.getElem?_append_left hlt]; exact ha1, ?_⟩
          intro k hk hk2
          by_cases hk3 : k < seen.length
          · rw [List.getElem?_append_left hk3] at hk2
            exact ha2 k hk hk2
          · by_cases hk4 : k = seen.length
            · subst hk4
              rw [List.getElem?_concat_length] at hk2
              injection hk2 with hk2
              exact hv hk2.symm
            · rw [List.getElem?_eq_none (by simp; omega)] at hk2
              exact Option.noConfusion hk2
      have inv2' : ∀ (j' : Nat) (v' : Int), (seen ++ [v])[j']? = some v' →
          insertM h v seen.length v' ≠ none := by
        intro j' v' hj'
        unfold insertM
        by_cases hv : v' = v
        · rw [if_pos hv]
          exact Option.noConfusion
        · rw [if_neg hv]
          have hlen : j' < seen.length + 1 := by
            have := (List.getElem?_eq_some_iff.mp hj').1
            simpa using this
          by_cases hlt : j' < seen.length
          · rw [List.getElem?_append_left hlt] at hj'
            exact inv2 j' v' hj'
          · have hj'' : j' = seen.length := by omega
            subst hj''
            rw [List.getElem?_concat_length] at hj'
            injection hj' with hj'
            exact absurd hj'.symm hv
      have ih' := ih (seen ++ [v]) (insertM h v seen.length) inv1' inv2'
      simp only [List.length_append, List.length_cons, List.length_nil,
        List.append_assoc, List.singleton_append, Nat.zero_add] at ih'
      rcases ih' with ⟨hres, hpairs⟩ | ⟨a, b, va, vb, hres, hab, ha, hb, hwr, hlast⟩
      · left
        refine ⟨by rw [step]; exact hres, ?_⟩
        intro p q vp vq hpq hq hp' hq' hlo hhi
        by_cases hq1 : seen.length + 1 ≤ q
        · exact hpairs p q vp vq hpq hq1 hp' hq' hlo hhi
        · have hq2 : q = seen.length := by omega
          subst hq2
          rw [List.getElem?_append_right (le_refl _)] at hq'
          simp only [Nat.sub_self, List.getElem?_cons_zero, Option.some.injEq] at hq'
          have hp2 : p < seen.length := by omega
          rw [List.getElem?_append_left hp2] at hp'
          intro hdvd
          have hdvd' : (2 ^ 32 : Int) ∣ ((target - v) - vp) := by
            obtain ⟨c, hcc⟩ := hdvd
            exact ⟨-c, by subst hq'; omega⟩
          have hweq : wrap32 (target - v) = vp := (wrap32_eq_iff hlo hhi).mpr hdvd'
          apply inv2 p vp hp'
          rw [← hweq]
          exact hc
      · right
        exact ⟨a, b, va, vb, by rw [step]; exact hres, hab, ha, hb, hwr, hlast⟩

/-- C1 (amended): over 32-bit inputs the program pairs values whose sum is
congruent to the target modulo `2^32` (the `i32`-wrapped complement lookup):
if some pair of distinct in-bounds indices satisfies
`nums[i] + nums[j] ≡ target (mod 2^32)` — in particular any pair whose exact
sum equals the target — then `two_sum` returns such a pair, earlier index
first, later index second, never an index against itself; if no such pair
exists it returns the empty vector. The original exact-sum claim fails at
`nums = [-2^31, -1, 2^30, 2^30 - 1]`, `target = 2^31 - 1`. -/
theorem two_sum_correct (nums : List Int) (target : Int)
    (hrange : ∀ v ∈ nums, -(2 ^ 31) ≤ v ∧ v < 2 ^ 31)
    (_htarget : -(2 ^ 31) ≤ target ∧ target < 2 ^ 31) :
    ((∃ i j : Nat, i ≠ j ∧ ∃ vi vj : Int, nums[i]? = some vi ∧ nums[j]? = some vj ∧
        (2 ^ 32 : Int) ∣ (vi + vj - target)) →
      ∃ (a b : Nat) (va vb : Int), two_sum nums target = [(a : Int), (b : Int)] ∧
        a < b ∧ a ≠ b ∧ b < nums.length ∧ nums[a]? = some va ∧ nums[b]? = some vb ∧
        (2 ^ 32 : Int) ∣ (va + vb - target)) ∧
    ((¬ ∃ i j : Nat, i ≠ j ∧ ∃ vi vj : Int, nums[i]? = some vi ∧ nums[j]? = some vj ∧
        (2 ^ 32 : Int) ∣ (vi + vj - target)) →
      two_sum nums target = []) := by
  have hspec := two_sum_aux_spec target nums [] (fun _ => none)
    (fun v j hj => Option.noConfusion hj)
    (fun j v hj => by simp at hj)
  simp only [List.nil_append, List.length_nil] at hspec
  have hsound : ∀ (va vb : Int), va = wrap32 (target - vb) →
      (2 ^ 32 : Int) ∣ (va + vb - target) := by
    intro va vb hwr
    obtain ⟨c, hcc⟩ := wrap32_sub_dvd (target - vb)
    exact ⟨c, by omega⟩
  constructor
  · rintro ⟨i, j, hij, vi, vj, hi, hj, hdvd⟩
    rcases hspec with ⟨hres, hpairs⟩ | ⟨a, b, va, vb, hres, hab, ha, hb, hwr, hlast⟩
    · exfalso
      have hvi := hrange vi (List.getElem?_mem hi)
      have hvj := hrange vj (List.getElem?_mem hj)
      rcases Nat.lt_or_ge i j with hlt | hge
      · exact hpairs i j vi vj hlt (Nat.zero_le _) hi hj hvi.1 hvi.2 hdvd
      · have hlt : j < i := by omega
        apply hpairs j i vj vi hlt (Nat.zero_le _) hj hi hvj.1 hvj.2
        obtain ⟨c, hcc⟩ := hdvd
        exact ⟨c, by omega⟩
    · exact ⟨a, b, va, vb, hres, hab, by omega,
        (List.getElem?_eq_some_iff.mp hb).1, ha, hb, hsound va vb hwr⟩
  · intro hno
    rcases hspec with ⟨hres, _⟩ | ⟨a, b, va, vb, hres, hab, ha, hb, hwr, _⟩
    · exact hres
    · exact absurd ⟨a, b, by omega, va, vb, ha, hb, hsound va vb hwr⟩ hno

theorem two_sum_correct_witness :
    (∀ v ∈ ([2, 7, 11, 15] : List Int), -(2 ^ 31) ≤ v ∧ v < 2 ^ 31) ∧
    (-(2 ^ 31) ≤ (9 : Int) ∧ (9 : Int) < 2 ^ 31) ∧
    (∃ i j : Nat, i ≠ j ∧ ∃ vi vj : Int, ([2, 7, 11, 15] : List Int)[i]? = some vi ∧
        ([2, 7, 11, 15] : List Int)[j]? = some vj ∧ (2 ^ 32 : Int) ∣ (vi + vj - 9)) ∧
    (∃ (a b : Nat) (va vb : Int), two_sum [2, 7, 11, 15] 9 = [(a : Int), (b : Int)] ∧
        a < b ∧ a ≠ b ∧ b < ([2, 7, 11, 15] : List Int).length ∧
        ([2, 7, 11, 15] : List Int)[a]? = some va ∧
        ([2, 7, 11, 15] : List Int)[b]? = some vb ∧ (2 ^ 32 : Int) ∣ (va + vb - 9)) ∧
    (∀ v ∈ ([1, 2] : List Int), -(2 ^ 31) ≤ v ∧ v < 2 ^ 31) ∧
    (¬ ∃ i j : Nat, i ≠ j ∧ ∃ vi vj : Int, ([1, 2] : List Int)[i]? = some vi ∧
        ([1, 2] : List Int)[j]? = some vj ∧ (2 ^ 32 : Int) ∣ (vi + vj - 100)) ∧
    two_sum [1, 2] 100 = [] := by
  have hr1 : ∀ v ∈ ([2, 7, 11, 15] : List Int), -(2 ^ 31) ≤ v ∧ v < 2 ^ 31 := by decide
  have hr2 : ∀ v ∈ ([1, 2] : List Int), -(2 ^ 31) ≤ v ∧ v < 2 ^ 31 := by decide
  have hex : ∃ i j : Nat, i ≠ j ∧ ∃ vi vj : Int, ([2, 7, 11, 15] : List Int)[i]? = some vi ∧
      ([2, 7, 11, 15] : List Int)[j]? = some vj ∧ (2 ^ 32 : Int) ∣ (vi + vj - 9) :=
    ⟨0, 1, by omega, 2, 7, by decide, by decide, ⟨0, by norm_num⟩⟩
  have hnex : ¬ ∃ i j : Nat, i ≠ j ∧ ∃ vi vj : Int, ([1, 2] : List Int)[i]? = some vi ∧
      ([1, 2] : List Int)[j]? = some vj ∧ (2 ^ 32 : Int) ∣ (vi + vj - 100) := by
    rintro ⟨i, j, hij, vi, vj, hi, hj, hdvd⟩
    have hib : i < 2 := by simpa using (List.getElem?_eq_some_iff.mp hi).1
    have hjb : j < 2 := by simpa using (List.getElem?_eq_some_iff.mp hj).1
    interval_cases i <;> interval_cases j <;> simp_all <;> omega
  exact ⟨hr1, by norm_num,
    hex, (two_sum_correct [2, 7, 11, 15] 9 hr1 (by norm_num)).1 hex,
    hr2, hnex, (two_sum_correct [1, 2] 100 hr2 (by norm_num)).2 hnex⟩

/-- C1 (counterexample): on the in-range input
`nums = [-2147483648, -1, 1073741824, 1073741823]`, `target = 2^31 - 1`, a
pair of distinct in-bounds indices with exact sum equal to the target exists
(indices 2 and 3), yet the program returns `[0, 1]` — the wrapped complement
lookup fires first — and `nums[0] + nums[1] = -2147483649` is not the
target: the exact-sum claim is false. -/
theorem two_sum_exact_sum_fails :
    (∀ v ∈ ([-2147483648, -1, 1073741824, 1073741823] : List Int),
      -(2 ^ 31) ≤ v ∧ v < 2 ^ 31) ∧
    (-(2 ^ 31) ≤ (2 ^ 31 - 1 : Int) ∧ (2 ^ 31 - 1 : Int) < 2 ^ 31) ∧
    ([-2147483648, -1, 1073741824, 1073741823] : List Int)[2]? = some 1073741824 ∧
    ([-2147483648, -1, 1073741824, 1073741823] : List Int)[3]? = some 1073741823 ∧
    (1073741824 : Int) + 1073741823 = 2 ^ 31 - 1 ∧ (2 : Nat) ≠ 3 ∧
    two_sum [-2147483648, -1, 1073741824, 1073741823] (2 ^ 31 - 1) =
      [(0 : Int), (1 : Int)] ∧
    ([-2147483648, -1, 1073741824, 1073741823] : List Int)[0]? = some (-2147483648) ∧
    ([-2147483648, -1, 1073741824, 1073741823] : List Int)[1]? = some (-1) ∧
    (-2147483648 : Int) + -1 ≠ 2 ^ 31 - 1 := by decide

/-- C3 (amended): whenever `two_sum` returns a pair, the left-hand index is
the index of the LAST (most recent) occurrence before the right-hand index of
the `i32` complement `wrap32 (target - nums[b])` — the key most recently
written into the map, since `insert` overwrites duplicates — not the first
occurrence claimed by the spec. -/
theorem two_sum_last_occurrence (nums : List Int) (target : Int)
    (hne : two_sum nums target ≠ []) :
    ∃ (a b : Nat) (vb : Int), two_sum nums target = [(a : Int), (b : Int)] ∧ a < b ∧
      nums[b]? = some vb ∧ nums[a]? = some (wrap32 (target - vb)) ∧
      ∀ k : Nat, a < k → k < b → nums[k]? ≠ some (wrap32 (target - vb)) := by
  have hspec := two_sum_aux_spec target nums [] (fun _ => none)
    (fun v j hj => Option.noConfusion hj)
    (fun j v hj => by simp at hj)
  simp only [List.nil_append, List.length_nil] at hspec
  rcases hspec with ⟨hres, _⟩ | ⟨a, b, va, vb, hres, hab, ha, hb, hwr, hlast⟩
  · exact absurd hres hne
  · rw [hwr] at ha hlast
    exact ⟨a, b, vb, hres, hab, hb, ha, hlast⟩

theorem two_sum_last_occurrence_witness :
    two_sum [1, 1, 2, 3] 4 ≠ [] ∧
    (∃ (a b : Nat) (vb : Int), two_sum [1, 1, 2, 3] 4 = [(a : Int), (b : Int)] ∧ a < b ∧
      ([1, 1, 2, 3] : List Int)[b]? = some vb ∧
      ([1, 1, 2, 3] : List Int)[a]? = some (wrap32 (4 - vb)) ∧
      ∀ k : Nat, a < k → k < b →
        ([1, 1, 2, 3] : List Int)[k]? ≠ some (wrap32 (4 - vb))) :=
  ⟨by decide, two_sum_last_occurrence [1, 1, 2, 3] 4 (by decide)⟩

/-- C3 (counterexample): on `nums = [1, 1, 2, 3]`, `target = 4` — a sequence
with duplicate values on which a pair is returned — the code returns
`[1, 3]`, yet the complement `4 - nums[3] = 1` already occurs at index
`0 < 1`: the returned left-hand index is not the first occurrence of the
complement before the right-hand index. -/
theorem two_sum_not_first_occurrence :
    two_sum [1, 1, 2, 3] 4 = [(1 : Int), (3 : Int)] ∧
    ([1, 1, 2, 3] : List Int)[3]? = some 3 ∧
    ([1, 1, 2, 3] : List Int)[0]? = some ((4 : Int) - 3) ∧ (0 : Nat) < 1 := by decide
